import Mathlib

/-!
Verification of the PillarPayout database debug agent
(`Step2_Backend_Development/agents/database_debug_agent.py`).

The script is a one-off source patcher working on file contents as text.
We embed its operations as pure functions over `List Char` (the decoded
UTF-8 text).  Python regular-expression substitutions are embedded as
explicit recursive scanners that mirror the leftmost, non-overlapping
replacement discipline of `re.sub`, with the exact backtracking behaviour
of the concrete patterns appearing in the source (analysed pattern by
pattern below).  File-system effects (existence checks, reads, writes) are
modelled by explicit outcome records and, for `run_diagnosis`, by an
environment of I/O success flags together with a trace of performed steps.
-/

namespace DebugAgent

set_option maxRecDepth 10000
/-! ## Character classes

`isPySpace` models Python's `\s` class (and `str.strip`'s notion of
whitespace) on the character repertoire relevant to this program: the six
ASCII whitespace characters plus the common Unicode whitespace code points
Python treats as spaces. -/

def isPySpace (c : Char) : Bool :=
  c = ' ' || c = '\t' || c = '\n' || c = '\r' || c = '\x0b' || c = '\x0c' ||
  c = '\x1c' || c = '\x1d' || c = '\x1e' || c = '\x1f' || c = '\x85' ||
  c = '\xa0' || c = ' ' || c = ' ' || c = ' ' || c = ' ' ||
  c = ' ' || c = ' ' || c = ' ' || c = ' ' || c = ' ' ||
  c = ' ' || c = ' ' || c = ' ' || c = ' ' || c = ' ' ||
  c = ' ' || c = ' ' || c = '　'

/-- Python's `str.strip()`: drop leading and trailing whitespace. -/
def pyStrip (l : List Char) : List Char :=
  ((l.dropWhile isPySpace).reverse.dropWhile isPySpace).reverse

/-- Python's substring test `needle in haystack` on character lists. -/
def containsSub (pat : List Char) : List Char → Bool
  | [] => pat.isEmpty
  | c :: t => pat.isPrefixOf (c :: t) || containsSub pat t

/-! ## `analyze_error`

```python
if "operator does not exist: character varying = integer" in error_message:
    return {"issue_type": "type_casting", ...}
return {"issue_type": "unknown", ...}
``` -/

structure ErrorAnalysis where
  issue_type : String
  problem : String
  solution : String
  deriving DecidableEq

def knownErr : List Char :=
  "operator does not exist: character varying = integer".toList

def typeCastingAnalysis : ErrorAnalysis :=
  { issue_type := "type_casting"
    problem := "VARCHAR column being compared to INTEGER"
    solution := "Add explicit type casting or fix parameter types" }

def unknownAnalysis : ErrorAnalysis :=
  { issue_type := "unknown"
    problem := "Unknown error"
    solution := "Investigate further" }

def analyze_error (error_message : List Char) : ErrorAnalysis :=
  if containsSub knownErr error_message then typeCastingAnalysis
  else unknownAnalysis

/-! ## `find_sql_issues`

The Python code reads the file, does `content.split('\n')` and for each
line (1-based `enumerate`) appends up to three issue records, one per
pattern test:

* `re.search(r"WHERE.*=.*'[^']*'", line)`: since `.` matches anything but
  a newline and split lines contain no newline, the search succeeds
  exactly when the line has `WHERE`, then somewhere later a `=`, then at
  least two `'` characters after that `=` (the first two quotes after the
  `=` enclose only non-quote characters, satisfying `[^']*`).
* `re.search(r"\$[0-9]+", line)`: a `$` immediately followed by a digit.
* `"UNION" in line.upper()`.
-/

/-- Python's `content.split('\n')`. -/
def splitNl : List Char → List (List Char)
  | [] => [[]]
  | c :: t =>
    if c = '\n' then [] :: splitNl t
    else
      match splitNl t with
      | [] => [[c]]
      | l :: ls => (c :: l) :: ls

def twoQuotes (s : List Char) : Bool := 2 ≤ (s.filter (· = '\'')).length

def eqThenQuotes : List Char → Bool
  | [] => false
  | c :: t => (c = '=' && twoQuotes t) || eqThenQuotes t

def wherePat : List Char → Bool
  | [] => false
  | c :: t => ("WHERE".toList.isPrefixOf (c :: t) && eqThenQuotes ((c :: t).drop 5)) || wherePat t

def dollarPat : List Char → Bool
  | [] => false
  | c :: t =>
    (c = '$' && (match t with | [] => false | d :: _ => d.isDigit)) || dollarPat t

def unionPat (s : List Char) : Bool := containsSub "UNION".toList (s.map Char.toUpper)

structure IssueRec where
  line : Nat
  content : List Char
  issue : String
  severity : String
  deriving DecidableEq

def whereMsg : String := "String literal comparison - check if column is VARCHAR"

def dollarMsg : String := "Parameter usage - verify type matches column type"

def unionMsg : String := "UNION query - ensure all SELECT statements have matching column types"

def whereRec (i : Nat) (l : List Char) : IssueRec := ⟨i, pyStrip l, whereMsg, "medium"⟩

def dollarRec (i : Nat) (l : List Char) : IssueRec := ⟨i, pyStrip l, dollarMsg, "high"⟩

def unionRec (i : Nat) (l : List Char) : IssueRec := ⟨i, pyStrip l, unionMsg, "high"⟩

def issuesForLine (i : Nat) (l : List Char) : List IssueRec :=
  (if wherePat l then [whereRec i l] else []) ++
  (if dollarPat l then [dollarRec i l] else []) ++
  (if unionPat l then [unionRec i l] else [])

def scanLines : Nat → List (List Char) → List IssueRec
  | _, [] => []
  | i, l :: ls => issuesForLine i l ++ scanLines (i + 1) ls

def find_sql_issues (content : List Char) : List IssueRec :=
  scanLines 1 (splitNl content)

/-- Rank of the pattern that produced a record: the within-line emission
order of the three patterns. -/
def issueRank (r : IssueRec) : Nat :=
  if r.issue = whereMsg then 0 else if r.issue = dollarMsg then 1 else 2

def issueOrder (a b : IssueRec) : Prop :=
  a.line < b.line ∨ (a.line = b.line ∧ issueRank a < issueRank b)

/-! ## Literal-pattern substitution

`re.sub` with a literal (metacharacter-free) pattern replaces the
leftmost non-overlapping occurrences, scanning left to right and resuming
immediately after each replaced match.  The `Nat` fuel argument makes the
scanner structural; `replaceAll` instantiates it with the input length,
which `replF_congr` shows is sufficient. -/

def replF (pat rep : List Char) : Nat → List Char → List Char
  | 0, s => s
  | _ + 1, [] => []
  | f + 1, c :: t =>
    if pat.isPrefixOf (c :: t) then rep ++ replF pat rep f ((c :: t).drop pat.length)
    else c :: replF pat rep f t

def replaceAll (pat rep s : List Char) : List Char := replF pat rep s.length s

/-! ### Occurrence-overlap side conditions

`noStartInside pat X = true` says no occurrence of `pat` can begin inside
`X`, whatever text follows: every nonempty suffix of `X` is incompatible
with `pat` (neither is a prefix of the other).  `noCrossLeft pat X = true`
says no occurrence of `pat` beginning strictly left of `X` can reach into
`X`: every proper nonempty suffix of `pat` is incompatible with `X`.
Together they make a literal substitution transparent on a distinguished
substring `X` (`replaceAll_through`). -/

def noStartInside (pat : List Char) : List Char → Bool
  | [] => true
  | c :: t =>
    !(pat.isPrefixOf (c :: t)) && !((c :: t).isPrefixOf pat) && noStartInside pat t

def suffCheck (X : List Char) : List Char → Bool
  | [] => true
  | c :: t => !((c :: t).isPrefixOf X) && !(X.isPrefixOf (c :: t)) && suffCheck X t

def noCrossLeft (pat X : List Char) : Bool :=
  match pat with
  | [] => true
  | _ :: t => suffCheck X t

/-! ## The `WHERE.*result\s*=\s*'win'` substitution

In `fix_sql_query` the second substitution uses the pattern
`WHERE.*result\s*=\s*'win'` (replacement `WHERE result = 'win'::VARCHAR`).
Its backtracking behaviour is deterministic:

* `\s*` immediately followed by a one-character literal is equivalent to
  "consume the maximal run of whitespace, then require the literal":
  backing off the greedy `\s*` always leaves a whitespace character in
  front, which cannot match `=` or `'`.  So the part of the pattern after
  `.*` — `result\s*=\s*'win'` — matches at a given position in exactly one
  way (`matchTail`).
* `.*` is greedy and cannot cross a newline, so the engine tries the
  candidate positions for `result` from the rightmost position before the
  next newline (or end of input) leftwards, taking the first success
  (`lastTailMatch`).

`re.sub` again replaces every non-overlapping match, resuming after each
match (`subWhere`). -/

def whereTok : List Char := "WHERE".toList

def resultTok : List Char := "result".toList

def eqTok : List Char := ['=']

def winTok : List Char := "'win'".toList

def whereFixRep : List Char := "WHERE result = 'win'::VARCHAR".toList

/-- Match `result\s*=\s*'win'` at the head of `s`; return the rest. -/
def matchTail (s : List Char) : Option (List Char) :=
  if resultTok.isPrefixOf s then
    let s1 := (s.drop 6).dropWhile isPySpace
    if eqTok.isPrefixOf s1 then
      let s3 := (s1.drop 1).dropWhile isPySpace
      if winTok.isPrefixOf s3 then some (s3.drop 5) else none
    else none
  else none

/-- Try `matchTail` at every position reachable by `.*` (i.e. up to the
first newline), rightmost candidate first. -/
def lastTailMatch : List Char → Option (List Char)
  | [] => matchTail []
  | c :: t =>
    if c = '\n' then matchTail (c :: t)
    else
      match lastTailMatch t with
      | some r => some r
      | none => matchTail (c :: t)

def subWhF : Nat → List Char → List Char
  | 0, s => s
  | _ + 1, [] => []
  | f + 1, c :: t =>
    if whereTok.isPrefixOf (c :: t) then
      match lastTailMatch ((c :: t).drop 5) with
      | some r => whereFixRep ++ subWhF f r
      | none => c :: subWhF f t
    else c :: subWhF f t

def subWhere (s : List Char) : List Char := subWhF s.length s

/-- Does the `WHERE.*result\s*=\s*'win'` pattern match anywhere in `s`? -/
def hasWM : List Char → Bool
  | [] => false
  | c :: t =>
    (whereTok.isPrefixOf (c :: t) && (lastTailMatch ((c :: t).drop 5)).isSome) || hasWM t

/-- The line the specification's Scenario A is about. -/
def wline : List Char := "WHERE result = 'win'".toList

/-! ## `fix_sql_query`

The four `re.sub` calls, in source order:

1. `\[userId\.toString\(\)\]` → `[userId]` (a literal pattern),
2. `WHERE.*result\s*=\s*'win'` → `WHERE result = 'win'::VARCHAR`,
3. `LIMIT \$2` → `LIMIT $2::INTEGER` (literal),
4. `winnings > 0` → `winnings::NUMERIC > 0` (literal).

The transformed text is then written back and the method returns `True`;
`WriteOutcome` records the returned flag, the fact that a write was
performed, and the written text. -/

def pat1 : List Char := "[userId.toString()]".toList

def rep1 : List Char := "[userId]".toList

def pat3 : List Char := "LIMIT $2".toList

def rep3 : List Char := "LIMIT $2::INTEGER".toList

def pat4 : List Char := "winnings > 0".toList

def rep4 : List Char := "winnings::NUMERIC > 0".toList

def fixSqlTransform (content : List Char) : List Char :=
  replaceAll pat4 rep4 (replaceAll pat3 rep3 (subWhere (replaceAll pat1 rep1 content)))

structure WriteOutcome where
  ok : Bool
  wrote : Bool
  written : List Char
  deriving DecidableEq

def fix_sql_query (content : List Char) : WriteOutcome :=
  ⟨true, true, fixSqlTransform content⟩

/-! ## `create_simple_fallback_query`

`re.sub(r'const bettingQuery = `.*?`;', fallback_query.strip(), content,
flags=re.DOTALL)`: the pattern is the literal opener
`` const bettingQuery = ` ``, then a lazy `.*?` that (under `DOTALL`)
matches any characters including newlines, then the literal closer
`` `; ``.  Laziness makes each match end at the first closer following its
opener.  As with every `re.sub`, all non-overlapping matches are replaced,
scanning left to right.  `fallbackRep` is `fallback_query.strip()`:
`str.strip` removes the leading newline-plus-indent and the trailing
newline-plus-indent of the triple-quoted literal and nothing else. -/

def openTok : List Char := "const bettingQuery = `".toList

def closeTok : List Char := "`;".toList

def fallbackRep : List Char :=
  ("// Simple fallback query - just get basic bet information\n" ++
   "    const simpleQuery = `\n" ++
   "      SELECT \n" ++
   "        'bet_activity' as activity_type,\n" ++
   "        'Bet placed' as description,\n" ++
   "        -amount as amount_change,\n" ++
   "        timestamp,\n" ++
   "        'bet' as category\n" ++
   "      FROM bets\n" ++
   "      WHERE user_id = $1\n" ++
   "      ORDER BY timestamp DESC\n" ++
   "      LIMIT $2\n" ++
   "    `;\n" ++
   "    \n" ++
   "    const result = await db.query(simpleQuery, [userId, limit]);").toList

/-- Find the first occurrence of the closer `` `; ``; return the rest of
the text after it (the lazy `.*?` stops at the first closer). -/
def findClose : List Char → Option (List Char)
  | [] => none
  | c :: t => if closeTok.isPrefixOf (c :: t) then some ((c :: t).drop 2) else findClose t

def subFbF : Nat → List Char → List Char
  | 0, s => s
  | _ + 1, [] => []
  | f + 1, c :: t =>
    if openTok.isPrefixOf (c :: t) then
      match findClose ((c :: t).drop 22) with
      | some r => fallbackRep ++ subFbF f r
      | none => c :: subFbF f t
    else c :: subFbF f t

def subFallback (s : List Char) : List Char := subFbF s.length s

/-- Does the fallback pattern match anywhere in `s`? -/
def hasFb : List Char → Bool
  | [] => false
  | c :: t =>
    (openTok.isPrefixOf (c :: t) && (findClose ((c :: t).drop 22)).isSome) || hasFb t

def create_simple_fallback_query (content : List Char) : WriteOutcome :=
  ⟨true, true, subFallback content⟩

/-! ## `run_diagnosis`

`run_diagnosis` is I/O glue; we model it by its control flow over an
environment of I/O outcomes.  `create_simple_fallback_query` and
`fix_sql_query` return `False` only when an I/O exception occurs, so their
success is a property of the environment (`fallbackOk`, `fixOk`), and
`targetExists` is `os.path.exists` of the hardcoded path.  The returned
trace lists the operations the run performed, in order:

```python
if not os.path.exists(target_file):
    print(...); return False
analysis = self.analyze_error(error_msg)
issues = self.find_sql_issues(target_file)
if self.create_simple_fallback_query(target_file): return True
if self.fix_sql_query(target_file): return True
return False
``` -/

structure RunEnv where
  targetExists : Bool
  fallbackOk : Bool
  fixOk : Bool
  deriving DecidableEq

inductive RunStep where
  | printNotFound
  | analyzeError
  | findIssues
  | fallback
  | targetedFix
  deriving DecidableEq

def run_diagnosis (env : RunEnv) : Bool × List RunStep :=
  if env.targetExists = false then (false, [RunStep.printNotFound])
  else if env.fallbackOk then
    (true, [RunStep.analyzeError, RunStep.findIssues, RunStep.fallback])
  else if env.fixOk then
    (true, [RunStep.analyzeError, RunStep.findIssues, RunStep.fallback, RunStep.targetedFix])
  else
    (false, [RunStep.analyzeError, RunStep.findIssues, RunStep.fallback, RunStep.targetedFix])

/-! ## The claims -/

def patternsClear (s : List Char) : Bool :=
  !(containsSub pat1 s) && !(hasWM s) && !(containsSub pat3 s) && !(containsSub pat4 s)

def twoBlocksC3 : List Char :=
  "const bettingQuery = `A`; const bettingQuery = `B`;".toList

/-! ## Lemmas and claim theorems -/

/-! ## Bridging `List.isPrefixOf` with its defining existential -/

theorem isPrefixOf_iff : ∀ (p s : List Char), p.isPrefixOf s = true ↔ ∃ t, p ++ t = s
  | [], s => by simp [List.isPrefixOf]
  | a :: p, [] => by simp [List.isPrefixOf]
  | a :: p, b :: s => by
    simp only [List.isPrefixOf, Bool.and_eq_true, beq_iff_eq]
    constructor
    · rintro ⟨rfl, h⟩
      obtain ⟨t, rfl⟩ := (isPrefixOf_iff p s).mp h
      exact ⟨t, rfl⟩
    · rintro ⟨t, h⟩
      simp only [List.cons_append, List.cons.injEq] at h
      exact ⟨h.1, (isPrefixOf_iff p s).mpr ⟨t, h.2⟩⟩

theorem isPrefixOf_self_append (p t : List Char) : p.isPrefixOf (p ++ t) = true :=
  (isPrefixOf_iff p (p ++ t)).mpr ⟨t, rfl⟩

theorem length_le_of_isPrefixOf {p s : List Char} (h : p.isPrefixOf s = true) :
    p.length ≤ s.length := by
  obtain ⟨t, rfl⟩ := (isPrefixOf_iff p s).mp h
  simp

/-- If `p` and `q` are both prefixes of the same list and `p` is the shorter
one, then `p` is a prefix of `q`. -/
theorem prefOf_le {p q s : List Char} (h1 : ∃ t, p ++ t = s) (h2 : ∃ t, q ++ t = s)
    (hle : p.length ≤ q.length) : ∃ t, p ++ t = q := by
  obtain ⟨t1, rfl⟩ := h1
  obtain ⟨t2, h2⟩ := h2
  refine ⟨q.drop p.length, ?_⟩
  have hq : q = (p ++ t1).take q.length := by
    rw [← h2, List.take_left]
  have hp : q.take p.length = p := by
    rw [hq, List.take_take, Nat.min_eq_left hle, List.take_append_of_le_length le_rfl,
      List.take_length]
  calc p ++ q.drop p.length = q.take p.length ++ q.drop p.length := by rw [hp]
    _ = q := List.take_append_drop _ _

theorem containsSub_iff (pat : List Char) :
    ∀ s : List Char, containsSub pat s = true ↔ ∃ u v, u ++ pat ++ v = s
  | [] => by
    constructor
    · intro h
      have : pat = [] := by
        simpa [containsSub, List.isEmpty_iff] using h
      exact ⟨[], [], by simp [this]⟩
    · rintro ⟨u, v, h⟩
      have : pat = [] := by
        rcases List.append_eq_nil.mp ((List.append_eq_nil).mp h).1 with ⟨_, h2⟩
        exact h2
      simp [containsSub, this]
  | c :: t => by
    simp only [containsSub, Bool.or_eq_true]
    constructor
    · rintro (h | h)
      · obtain ⟨r, hr⟩ := (isPrefixOf_iff _ _).mp h
        exact ⟨[], r, by simpa using hr⟩
      · obtain ⟨u, v, huv⟩ := (containsSub_iff pat t).mp h
        exact ⟨c :: u, v, by simp [huv]⟩
    · rintro ⟨u, v, huv⟩
      match u, huv with
      | [], huv =>
        exact Or.inl ((isPrefixOf_iff _ _).mpr ⟨v, by simpa using huv⟩)
      | d :: u, huv =>
        simp only [List.cons_append, List.cons.injEq] at huv
        exact Or.inr ((containsSub_iff pat t).mpr ⟨u, v, huv.2⟩)

theorem issuesForLine_length_le (i : Nat) (l : List Char) :
    (issuesForLine i l).length ≤ 3 := by
  unfold issuesForLine
  split <;> split <;> split <;> simp

theorem scanLines_length_le : ∀ (i : Nat) (ls : List (List Char)),
    (scanLines i ls).length ≤ 3 * ls.length
  | _, [] => by simp [scanLines]
  | i, l :: ls => by
    simp only [scanLines, List.length_append, List.length_cons]
    have h1 := issuesForLine_length_le i l
    have h2 := scanLines_length_le (i + 1) ls
    omega

theorem mem_issuesForLine {i : Nat} {l : List Char} {r : IssueRec}
    (h : r ∈ issuesForLine i l) :
    r = whereRec i l ∨ r = dollarRec i l ∨ r = unionRec i l := by
  unfold issuesForLine at h
  split at h <;> split at h <;> split at h <;> simp at h <;> tauto

theorem line_of_mem_scanLines : ∀ {i : Nat} {ls : List (List Char)} {r : IssueRec},
    r ∈ scanLines i ls → i ≤ r.line
  | i, [], r => by simp [scanLines]
  | i, l :: ls, r => by
    intro h
    rcases List.mem_append.mp h with h | h
    · rcases mem_issuesForLine h with rfl | rfl | rfl <;> simp [whereRec, dollarRec, unionRec]
    · exact Nat.le_trans (by omega) (line_of_mem_scanLines h)

theorem pairwise_issuesForLine (i : Nat) (l : List Char) :
    (issuesForLine i l).Pairwise issueOrder := by
  have hwd : issueOrder (whereRec i l) (dollarRec i l) := by
    refine Or.inr ⟨rfl, ?_⟩
    simp [issueRank, whereRec, dollarRec, whereMsg, dollarMsg]
  have hwu : issueOrder (whereRec i l) (unionRec i l) := by
    refine Or.inr ⟨rfl, ?_⟩
    simp [issueRank, whereRec, unionRec, whereMsg, dollarMsg, unionMsg]
  have hdu : issueOrder (dollarRec i l) (unionRec i l) := by
    refine Or.inr ⟨rfl, ?_⟩
    simp [issueRank, dollarRec, unionRec, whereMsg, dollarMsg, unionMsg]
  unfold issuesForLine
  split <;> split <;> split <;>
    simp [List.pairwise_append, hwd, hwu, hdu]

theorem replF_congr (pat rep : List Char) (hp : pat ≠ []) :
    ∀ (f g : Nat) (s : List Char), s.length ≤ f → s.length ≤ g →
      replF pat rep f s = replF pat rep g s := by
  intro f
  induction f with
  | zero =>
    intro g s hf hg
    have : s = [] := List.length_eq_zero.mp (Nat.le_zero.mp hf)
    subst this
    cases g <;> rfl
  | succ f ih =>
    intro g s hf hg
    match s with
    | [] => cases g <;> rfl
    | c :: t =>
      match g with
      | 0 => simp at hg
      | g + 1 =>
        simp only [List.length_cons] at hf hg
        have hpl : 0 < pat.length := List.length_pos.mpr hp
        by_cases hpre : pat.isPrefixOf (c :: t) = true
        · simp only [replF, if_pos hpre]
          congr 1
          refine ih _ _ ?_ ?_ <;> · simp only [List.length_drop, List.length_cons]; omega
        · simp only [replF, if_neg hpre]
          congr 1
          exact ih _ _ (by omega) (by omega)

theorem replaceAll_nil (pat rep : List Char) : replaceAll pat rep [] = [] := rfl

theorem replaceAll_pos (pat rep : List Char) (hp : pat ≠ []) {s : List Char}
    (h : pat.isPrefixOf s = true) :
    replaceAll pat rep s = rep ++ replaceAll pat rep (s.drop pat.length) := by
  match s with
  | [] =>
    exfalso
    match pat, hp with
    | a :: p, _ => simp [List.isPrefixOf] at h
  | c :: t =>
    show replF pat rep (t.length + 1) (c :: t) = _
    simp only [replF, if_pos h]
    congr 1
    apply replF_congr pat rep hp
    · have := List.length_pos.mpr hp
      simp only [List.length_drop, List.length_cons]
      omega
    · exact le_rfl

theorem replaceAll_neg {pat : List Char} (rep : List Char) {c : Char} {t : List Char}
    (h : pat.isPrefixOf (c :: t) = false) :
    replaceAll pat rep (c :: t) = c :: replaceAll pat rep t := by
  have hn : ¬ pat.isPrefixOf (c :: t) = true := by
    rw [h]
    exact Bool.false_ne_true
  show replF pat rep (t.length + 1) (c :: t) = _
  simp only [replF, if_neg hn]
  rfl

theorem replaceAll_of_not_contains (pat rep : List Char) :
    ∀ {s : List Char}, containsSub pat s = false → replaceAll pat rep s = s
  | [], _ => rfl
  | c :: t, h => by
    simp only [containsSub, Bool.or_eq_false_iff] at h
    rw [replaceAll_neg rep h.1, replaceAll_of_not_contains pat rep h.2]

theorem not_prefOf_append {pat s : List Char} (h1 : pat.isPrefixOf s = false)
    (h2 : s.isPrefixOf pat = false) (B : List Char) :
    pat.isPrefixOf (s ++ B) = false := by
  cases hb : pat.isPrefixOf (s ++ B) with
  | false => rfl
  | true =>
    exfalso
    obtain ⟨t, ht⟩ := (isPrefixOf_iff _ _).mp hb
    rcases Nat.le_total pat.length s.length with hle | hle
    · have hps : ∃ u, pat ++ u = s := prefOf_le ⟨t, ht⟩ ⟨B, rfl⟩ hle
      rw [(isPrefixOf_iff _ _).mpr hps] at h1
      cases h1
    · have hsp : ∃ u, s ++ u = pat := prefOf_le ⟨B, rfl⟩ ⟨t, ht⟩ hle
      rw [(isPrefixOf_iff _ _).mpr hsp] at h2
      cases h2

theorem suffCheck_spec {X : List Char} : ∀ {t : List Char}, suffCheck X t = true →
    ∀ {q : List Char}, q <:+ t → q ≠ [] →
      q.isPrefixOf X = false ∧ X.isPrefixOf q = false
  | [], _, q, hq, hne => absurd (List.suffix_nil.mp hq) hne
  | c :: t, h, q, hq, hne => by
    simp only [suffCheck, Bool.and_eq_true, Bool.not_eq_true'] at h
    obtain ⟨⟨h1, h2⟩, h3⟩ := h
    rcases List.suffix_cons_iff.mp hq with rfl | hq'
    · exact ⟨h1, h2⟩
    · exact suffCheck_spec h3 hq' hne

theorem replaceAll_skip (pat rep : List Char) :
    ∀ (X B : List Char), noStartInside pat X = true →
      replaceAll pat rep (X ++ B) = X ++ replaceAll pat rep B
  | [], B, _ => by simp
  | c :: t, B, h => by
    simp only [noStartInside, Bool.and_eq_true, Bool.not_eq_true'] at h
    obtain ⟨⟨h1, h2⟩, h3⟩ := h
    have hng : pat.isPrefixOf ((c :: t) ++ B) = false := not_prefOf_append h1 h2 B
    rw [List.cons_append] at hng ⊢
    rw [replaceAll_neg rep hng, replaceAll_skip pat rep t B h3]
    rfl

/-- A literal substitution is transparent on a distinguished occurrence of
`X` when no occurrence of the pattern can start inside `X` nor cross into
`X` from the left: the text decomposes around `X`. -/
theorem replaceAll_through (pat rep X : List Char) (hp : pat ≠ [])
    (hin : noStartInside pat X = true) (hcl : noCrossLeft pat X = true) :
    ∀ (A B : List Char),
      replaceAll pat rep (A ++ X ++ B) =
        replaceAll pat rep A ++ X ++ replaceAll pat rep B := by
  suffices H : ∀ (n : Nat) (A B : List Char), A.length ≤ n →
      replaceAll pat rep (A ++ X ++ B) =
        replaceAll pat rep A ++ X ++ replaceAll pat rep B by
    intro A B
    exact H A.length A B le_rfl
  intro n
  induction n with
  | zero =>
    intro A B hA
    have : A = [] := List.length_eq_zero.mp (Nat.le_zero.mp hA)
    subst this
    simpa using replaceAll_skip pat rep X B hin
  | succ n ih =>
    intro A B hA
    match A with
    | [] => simpa using replaceAll_skip pat rep X B hin
    | a :: A' =>
      simp only [List.length_cons] at hA
      have hpl : 0 < pat.length := List.length_pos.mpr hp
      by_cases hm : pat.isPrefixOf (a :: A') = true
      · have hml : pat.length ≤ A'.length + 1 := by
          simpa using length_le_of_isPrefixOf hm
        have hmc : pat.isPrefixOf ((a :: A') ++ X ++ B) = true := by
          obtain ⟨t, ht⟩ := (isPrefixOf_iff _ _).mp hm
          exact (isPrefixOf_iff _ _).mpr ⟨t ++ (X ++ B), by rw [← List.append_assoc, ht]; simp⟩
        rw [replaceAll_pos pat rep hp hmc, replaceAll_pos pat rep hp hm]
        have hdrop : ((a :: A') ++ X ++ B).drop pat.length =
            (a :: A').drop pat.length ++ X ++ B := by
          rw [List.append_assoc, List.drop_append_of_le_length (by simpa using hml),
            List.append_assoc]
        rw [hdrop, ih ((a :: A').drop pat.length) B
          (by simp only [List.length_drop, List.length_cons]; omega)]
        simp [List.append_assoc]
      · have hmn : pat.isPrefixOf (a :: A') = false := by
          cases hb : pat.isPrefixOf (a :: A') with
          | false => rfl
          | true => exact absurd hb hm
        have hmc : pat.isPrefixOf ((a :: A') ++ X ++ B) = false := by
          cases hb : pat.isPrefixOf ((a :: A') ++ X ++ B) with
          | false => rfl
          | true =>
            exfalso
            obtain ⟨t, ht⟩ := (isPrefixOf_iff _ _).mp hb
            rw [List.append_assoc] at ht
            rcases Nat.le_total pat.length (a :: A').length with hle | hle
            · have hps : ∃ u, pat ++ u = a :: A' :=
                prefOf_le ⟨t, ht⟩ ⟨X ++ B, rfl⟩ hle
              rw [(isPrefixOf_iff _ _).mpr hps] at hmn
              cases hmn
            · have hAp : ∃ u, (a :: A') ++ u = pat :=
                prefOf_le ⟨X ++ B, rfl⟩ ⟨t, ht⟩ hle
              obtain ⟨q, hq⟩ := hAp
              match q, hq with
              | [], hq =>
                rw [List.append_nil] at hq
                rw [hq, (isPrefixOf_iff _ _).mpr ⟨[], List.append_nil _⟩] at hmn
                cases hmn
              | d :: q', hq =>
                have hsuf : (d :: q') <:+ (A' ++ (d :: q')) := List.suffix_append A' _
                have hpat : pat = a :: (A' ++ (d :: q')) := by
                  rw [← hq]
                  rfl
                have hsc : suffCheck X (A' ++ (d :: q')) = true := by
                  have := hcl
                  rw [hpat] at this
                  simpa [noCrossLeft] using this
                obtain ⟨hq1, hq2⟩ := suffCheck_spec hsc hsuf (by simp)
                have hqpre : (d :: q').isPrefixOf (X ++ B) = true := by
                  refine (isPrefixOf_iff _ _).mpr ⟨t, ?_⟩
                  have := ht
                  rw [← hq, List.append_assoc] at this
                  exact List.append_cancel_left this
                rw [not_prefOf_append hq1 hq2 B] at hqpre
                cases hqpre
        rw [List.cons_append, List.cons_append] at hmc ⊢
        rw [replaceAll_neg rep hmc, replaceAll_neg rep hmn,
          ih A' B (by omega)]
        simp

theorem matchTail_length {s r : List Char} (h : matchTail s = some r) :
    r.length + 12 ≤ s.length := by
  unfold matchTail at h
  by_cases hres : resultTok.isPrefixOf s = true
  · rw [if_pos hres] at h
    simp only at h
    have h6 : (6 : Nat) ≤ s.length := length_le_of_isPrefixOf hres
    by_cases heq : eqTok.isPrefixOf ((s.drop 6).dropWhile isPySpace) = true
    · rw [if_pos heq] at h
      have h1 : (1 : Nat) ≤ ((s.drop 6).dropWhile isPySpace).length :=
        length_le_of_isPrefixOf heq
      by_cases hwin : winTok.isPrefixOf
          ((((s.drop 6).dropWhile isPySpace).drop 1).dropWhile isPySpace) = true
      · rw [if_pos hwin] at h
        have h5 : (5 : Nat) ≤
            ((((s.drop 6).dropWhile isPySpace).drop 1).dropWhile isPySpace).length :=
          length_le_of_isPrefixOf hwin
        have hr : r =
            ((((s.drop 6).dropWhile isPySpace).drop 1).dropWhile isPySpace).drop 5 := by
          injection h with h'
          exact h'.symm
        subst hr
        have e1 := (List.dropWhile_sublist
          (l := ((s.drop 6).dropWhile isPySpace).drop 1) isPySpace).length_le
        have e2 := (List.dropWhile_sublist (l := s.drop 6) isPySpace).length_le
        simp only [List.length_drop] at *
        omega
      · rw [if_neg hwin] at h
        cases h
    · rw [if_neg heq] at h
      cases h
  · rw [if_neg hres] at h
    cases h

theorem lastTailMatch_length : ∀ {s r : List Char}, lastTailMatch s = some r →
    r.length + 12 ≤ s.length
  | [], r, h => matchTail_length h
  | c :: t, r, h => by
    unfold lastTailMatch at h
    by_cases hc : c = '\n'
    · rw [if_pos hc] at h
      exact matchTail_length h
    · rw [if_neg hc] at h
      cases hl : lastTailMatch t with
      | some r' =>
        rw [hl] at h
        simp only [Option.some.injEq] at h
        subst h
        have := lastTailMatch_length hl
        simp only [List.length_cons]
        omega
      | none =>
        rw [hl] at h
        simp only at h
        exact matchTail_length h

theorem subWhF_congr : ∀ (f g : Nat) (s : List Char), s.length ≤ f → s.length ≤ g →
    subWhF f s = subWhF g s := by
  intro f
  induction f with
  | zero =>
    intro g s hf hg
    have : s = [] := List.length_eq_zero.mp (Nat.le_zero.mp hf)
    subst this
    cases g <;> rfl
  | succ f ih =>
    intro g s hf hg
    match s with
    | [] => cases g <;> rfl
    | c :: t =>
      match g with
      | 0 => simp at hg
      | g + 1 =>
        simp only [List.length_cons] at hf hg
        simp only [subWhF]
        by_cases hw : whereTok.isPrefixOf (c :: t) = true
        · rw [if_pos hw, if_pos hw]
          cases hl : lastTailMatch ((c :: t).drop 5) with
          | some r =>
            have hr := lastTailMatch_length hl
            simp only [List.length_drop, List.length_cons] at hr
            show whereFixRep ++ subWhF f r = whereFixRep ++ subWhF g r
            rw [ih g r (by omega) (by omega)]
          | none =>
            show c :: subWhF f t = c :: subWhF g t
            rw [ih g t (by omega) (by omega)]
        · rw [if_neg hw, if_neg hw]
          show c :: subWhF f t = c :: subWhF g t
          rw [ih g t (by omega) (by omega)]

theorem subWhere_nil : subWhere [] = [] := rfl

theorem subWhere_pos {c : Char} {t r : List Char}
    (hw : whereTok.isPrefixOf (c :: t) = true)
    (hl : lastTailMatch ((c :: t).drop 5) = some r) :
    subWhere (c :: t) = whereFixRep ++ subWhere r := by
  have hr := lastTailMatch_length hl
  simp only [List.length_drop, List.length_cons] at hr
  show subWhF (t.length + 1) (c :: t) = _
  simp only [subWhF, if_pos hw, hl]
  congr 1
  exact subWhF_congr _ _ _ (by omega) le_rfl

theorem subWhere_posNone {c : Char} {t : List Char}
    (hw : whereTok.isPrefixOf (c :: t) = true)
    (hl : lastTailMatch ((c :: t).drop 5) = none) :
    subWhere (c :: t) = c :: subWhere t := by
  show subWhF (t.length + 1) (c :: t) = _
  simp only [subWhF, if_pos hw, hl]
  rfl

theorem subWhere_neg {c : Char} {t : List Char}
    (hw : whereTok.isPrefixOf (c :: t) = false) :
    subWhere (c :: t) = c :: subWhere t := by
  have hn : ¬ whereTok.isPrefixOf (c :: t) = true := by
    rw [hw]
    exact Bool.false_ne_true
  show subWhF (t.length + 1) (c :: t) = _
  simp only [subWhF, if_neg hn]
  rfl

theorem subWhere_of_not_hasWM : ∀ {s : List Char}, hasWM s = false → subWhere s = s
  | [], _ => rfl
  | c :: t, h => by
    simp only [hasWM, Bool.or_eq_false_iff] at h
    obtain ⟨h1, h2⟩ := h
    by_cases hw : whereTok.isPrefixOf (c :: t) = true
    · have hnone : lastTailMatch ((c :: t).drop 5) = none := by
        cases ho : lastTailMatch ((c :: t).drop 5) with
        | none => rfl
        | some r =>
          rw [hw, ho] at h1
          simp at h1
      rw [subWhere_posNone hw hnone, subWhere_of_not_hasWM h2]
    · have hw' : whereTok.isPrefixOf (c :: t) = false := by
        cases hx : whereTok.isPrefixOf (c :: t) with
        | false => rfl
        | true => exact absurd hx hw
      rw [subWhere_neg hw', subWhere_of_not_hasWM h2]

/-- Any match anywhere puts a verbatim copy of the replacement into the
output of the substitution. -/
theorem whereFixRep_infix_subWhere : ∀ {s : List Char}, hasWM s = true →
    ∃ u v, u ++ whereFixRep ++ v = subWhere s
  | [], h => by simp [hasWM] at h
  | c :: t, h => by
    by_cases hw : whereTok.isPrefixOf (c :: t) = true
    · cases hl : lastTailMatch ((c :: t).drop 5) with
      | some r =>
        rw [subWhere_pos hw hl]
        exact ⟨[], subWhere r, by simp⟩
      | none =>
        have h2 : hasWM t = true := by
          simp only [hasWM, hl, Option.isSome_none, Bool.and_false,
            Bool.false_or] at h
          exact h
        rw [subWhere_posNone hw hl]
        obtain ⟨u, v, huv⟩ := whereFixRep_infix_subWhere h2
        exact ⟨c :: u, v, by rw [← huv]; simp⟩
    · have hw' : whereTok.isPrefixOf (c :: t) = false := by
        cases hx : whereTok.isPrefixOf (c :: t) with
        | false => rfl
        | true => exact absurd hx hw
      have h2 : hasWM t = true := by
        simp only [hasWM, hw', Bool.false_and, Bool.false_or] at h
        exact h
      rw [subWhere_neg hw']
      obtain ⟨u, v, huv⟩ := whereFixRep_infix_subWhere h2
      exact ⟨c :: u, v, by rw [← huv]; simp⟩

theorem hasWM_append (x : List Char) {z : List Char} (h : hasWM z = true) :
    hasWM (x ++ z) = true := by
  induction x with
  | nil => simpa using h
  | cons c x ih =>
    rw [List.cons_append]
    show (_ || hasWM (x ++ z)) = true
    rw [ih]
    simp

theorem isPrefixOf_append_of_isPrefixOf {p l : List Char} (h : p.isPrefixOf l = true)
    (B : List Char) : p.isPrefixOf (l ++ B) = true := by
  obtain ⟨u, rfl⟩ := (isPrefixOf_iff _ _).mp h
  rw [List.append_assoc]
  exact isPrefixOf_self_append _ _

/-- When `dropWhile` stops strictly inside `l`, appending a continuation
does not change where it stops. -/
theorem dropWhile_append_cons {p : Char → Bool} :
    ∀ {l : List Char} {c : Char} {l' : List Char}, l.dropWhile p = c :: l' →
      ∀ (B : List Char), (l ++ B).dropWhile p = c :: (l' ++ B)
  | [], _, _, h => by cases h
  | a :: l2, c, l', h => by
    intro B
    rw [List.cons_append, List.dropWhile_cons]
    rw [List.dropWhile_cons] at h
    by_cases hpa : p a = true
    · rw [if_pos hpa] at h ⊢
      exact dropWhile_append_cons h B
    · rw [if_neg hpa] at h ⊢
      injection h with h1 h2
      subst h1
      subst h2
      rfl

theorem matchTail_result_win (B : List Char) :
    matchTail ("result = 'win'".toList ++ B) = some B := by
  have h1 : resultTok.isPrefixOf ("result = 'win'".toList ++ B) = true :=
    isPrefixOf_append_of_isPrefixOf (by decide) B
  have h2 : ("result = 'win'".toList ++ B).drop 6 = " = 'win'".toList ++ B := by
    rw [List.drop_append_of_le_length (by decide)]
    congr 1
  have h3 : (" = 'win'".toList ++ B).dropWhile isPySpace = '=' :: (" 'win'".toList ++ B) :=
    dropWhile_append_cons (by decide) B
  have h4 : eqTok.isPrefixOf ('=' :: (" 'win'".toList ++ B)) = true :=
    (isPrefixOf_iff _ _).mpr ⟨" 'win'".toList ++ B, rfl⟩
  have h5 : (" 'win'".toList ++ B).dropWhile isPySpace = '\'' :: ("win'".toList ++ B) :=
    dropWhile_append_cons (by decide) B
  have hlit : '\'' :: ("win'".toList ++ B) = "'win'".toList ++ B := by
    rw [← List.cons_append]
    congr 1
  have h6 : winTok.isPrefixOf ('\'' :: ("win'".toList ++ B)) = true := by
    rw [hlit]
    exact isPrefixOf_append_of_isPrefixOf (by decide) B
  have h7 : ('\'' :: ("win'".toList ++ B)).drop 5 = B := by
    rw [hlit, List.drop_append_of_le_length (by decide)]
    have : "'win'".toList.drop 5 = [] := by decide
    rw [this, List.nil_append]
  unfold matchTail
  rw [if_pos h1]
  simp only [h2, h3, if_pos h4, List.drop_succ_cons, List.drop_zero, h5, if_pos h6, h7]

theorem lastTailMatch_isSome_of_matchTail {s : List Char} (h : (matchTail s).isSome = true) :
    (lastTailMatch s).isSome = true := by
  match s with
  | [] => exact h
  | c :: t =>
    unfold lastTailMatch
    by_cases hc : c = '\n'
    · rw [if_pos hc]
      exact h
    · rw [if_neg hc]
      cases hl : lastTailMatch t with
      | some r => rfl
      | none =>
        show (matchTail (c :: t)).isSome = true
        exact h

theorem lastTailMatch_cons_isSome {c : Char} {t : List Char} (hc : ¬ c = '\n')
    (h : (lastTailMatch t).isSome = true) : (lastTailMatch (c :: t)).isSome = true := by
  unfold lastTailMatch
  rw [if_neg hc]
  cases hl : lastTailMatch t with
  | some r => rfl
  | none =>
    rw [hl] at h
    simp at h

theorem hasWM_wline (B : List Char) : hasWM (wline ++ B) = true := by
  have hpre : whereTok.isPrefixOf (wline ++ B) = true := by
    have hw : wline = whereTok ++ " result = 'win'".toList := by decide
    rw [hw, List.append_assoc]
    exact isPrefixOf_self_append _ _
  have hsome : (lastTailMatch ((wline ++ B).drop 5)).isSome = true := by
    have hdrop : (wline ++ B).drop 5 = " result = 'win'".toList ++ B := by
      rw [List.drop_append_of_le_length (by decide)]
      congr 1
    rw [hdrop]
    have hcons : " result = 'win'".toList ++ B = ' ' :: ("result = 'win'".toList ++ B) := by
      rw [← List.cons_append]
      congr 1
    rw [hcons]
    refine lastTailMatch_cons_isSome (by decide) ?_
    refine lastTailMatch_isSome_of_matchTail ?_
    rw [matchTail_result_win]
    rfl
  obtain ⟨c, z, hcz⟩ : ∃ c z, wline ++ B = c :: z := by
    rw [show wline = 'W' :: "HERE result = 'win'".toList from by decide, List.cons_append]
    exact ⟨_, _, rfl⟩
  rw [hcz] at hpre hsome ⊢
  show ((whereTok.isPrefixOf (c :: z) && (lastTailMatch ((c :: z).drop 5)).isSome)
      || hasWM z) = true
  rw [hpre, hsome]
  rfl

theorem findClose_length : ∀ {s r : List Char}, findClose s = some r → r.length + 2 ≤ s.length
  | [], _, h => by cases h
  | c :: t, r, h => by
    unfold findClose at h
    by_cases hc : closeTok.isPrefixOf (c :: t) = true
    · rw [if_pos hc] at h
      have h2 : (2 : Nat) ≤ (c :: t).length := length_le_of_isPrefixOf hc
      injection h with h'
      subst h'
      simp only [List.length_drop, List.length_cons] at *
      omega
    · rw [if_neg hc] at h
      have := findClose_length h
      simp only [List.length_cons]
      omega

theorem subFbF_congr : ∀ (f g : Nat) (s : List Char), s.length ≤ f → s.length ≤ g →
    subFbF f s = subFbF g s := by
  intro f
  induction f with
  | zero =>
    intro g s hf hg
    have : s = [] := List.length_eq_zero.mp (Nat.le_zero.mp hf)
    subst this
    cases g <;> rfl
  | succ f ih =>
    intro g s hf hg
    match s with
    | [] => cases g <;> rfl
    | c :: t =>
      match g with
      | 0 => simp at hg
      | g + 1 =>
        simp only [List.length_cons] at hf hg
        simp only [subFbF]
        by_cases hw : openTok.isPrefixOf (c :: t) = true
        · rw [if_pos hw, if_pos hw]
          cases hl : findClose ((c :: t).drop 22) with
          | some r =>
            have hr := findClose_length hl
            simp only [List.length_drop, List.length_cons] at hr
            show fallbackRep ++ subFbF f r = fallbackRep ++ subFbF g r
            rw [ih g r (by omega) (by omega)]
          | none =>
            show c :: subFbF f t = c :: subFbF g t
            rw [ih g t (by omega) (by omega)]
        · rw [if_neg hw, if_neg hw]
          show c :: subFbF f t = c :: subFbF g t
          rw [ih g t (by omega) (by omega)]

theorem subFallback_nil : subFallback [] = [] := rfl

theorem subFallback_pos {c : Char} {t r : List Char}
    (hw : openTok.isPrefixOf (c :: t) = true)
    (hf : findClose ((c :: t).drop 22) = some r) :
    subFallback (c :: t) = fallbackRep ++ subFallback r := by
  have hr := findClose_length hf
  simp only [List.length_drop, List.length_cons] at hr
  show subFbF (t.length + 1) (c :: t) = _
  simp only [subFbF, if_pos hw, hf]
  congr 1
  exact subFbF_congr _ _ _ (by omega) le_rfl

theorem subFallback_posNone {c : Char} {t : List Char}
    (hw : openTok.isPrefixOf (c :: t) = true)
    (hf : findClose ((c :: t).drop 22) = none) :
    subFallback (c :: t) = c :: subFallback t := by
  show subFbF (t.length + 1) (c :: t) = _
  simp only [subFbF, if_pos hw, hf]
  rfl

theorem subFallback_neg {c : Char} {t : List Char}
    (hw : openTok.isPrefixOf (c :: t) = false) :
    subFallback (c :: t) = c :: subFallback t := by
  have hn : ¬ openTok.isPrefixOf (c :: t) = true := by
    rw [hw]
    exact Bool.false_ne_true
  show subFbF (t.length + 1) (c :: t) = _
  simp only [subFbF, if_neg hn]
  rfl

theorem subFallback_of_not_hasFb : ∀ {s : List Char}, hasFb s = false → subFallback s = s
  | [], _ => rfl
  | c :: t, h => by
    simp only [hasFb, Bool.or_eq_false_iff] at h
    obtain ⟨h1, h2⟩ := h
    by_cases hw : openTok.isPrefixOf (c :: t) = true
    · have hnone : findClose ((c :: t).drop 22) = none := by
        cases ho : findClose ((c :: t).drop 22) with
        | none => rfl
        | some r =>
          rw [hw, ho] at h1
          simp at h1
      rw [subFallback_posNone hw hnone, subFallback_of_not_hasFb h2]
    · have hw' : openTok.isPrefixOf (c :: t) = false := by
        cases hx : openTok.isPrefixOf (c :: t) with
        | false => rfl
        | true => exact absurd hx hw
      rw [subFallback_neg hw', subFallback_of_not_hasFb h2]

/-- An occurrence of the opener cannot begin strictly inside a
backtick-free region that is followed by the opener: the opener's only
backtick is its final character. -/
theorem openTok_not_prefOf_mid {m : List Char} (hm : ∀ c ∈ m, c ≠ '`') (hne : m ≠ [])
    (s : List Char) : openTok.isPrefixOf (m ++ (openTok ++ s)) = false := by
  cases hb : openTok.isPrefixOf (m ++ (openTok ++ s)) with
  | false => rfl
  | true =>
    exfalso
    obtain ⟨t, ht⟩ := (isPrefixOf_iff _ _).mp hb
    have htake : openTok = (m ++ (openTok ++ s)).take openTok.length := by
      rw [← ht, List.take_left]
    have hmc : m.count '`' = 0 :=
      List.count_eq_zero.mpr (fun hmem => hm '`' hmem rfl)
    rcases Nat.le_total openTok.length m.length with hle | hle
    · rw [List.take_append_of_le_length hle] at htake
      have h1 : openTok.count '`' = 1 := by decide
      have h2 : (m.take openTok.length).count '`' = 0 := by
        have := (List.take_sublist openTok.length m).count_le '`'
        omega
      rw [htake] at h1
      omega
    · rw [List.take_append_eq_append_take] at htake
      have hmt : m.take openTok.length = m := List.take_of_length_le hle
      rw [hmt, List.take_append_of_le_length (by omega)] at htake
      have hlen : 1 ≤ m.length := List.length_pos.mpr hne
      have h1 : openTok.count '`' = 1 := by decide
      have h2 : (openTok.take 21).count '`' = 0 := by decide
      have h3 : (openTok.take (openTok.length - m.length)).count '`' = 0 := by
        have heq : openTok.take (openTok.length - m.length)
            = (openTok.take 21).take (openTok.length - m.length) := by
          rw [List.take_take, Nat.min_eq_left (by
            have : openTok.length = 22 := rfl
            omega)]
        have := ((List.take_sublist (openTok.length - m.length)
          (openTok.take 21)).count_le '`')
        rw [← heq] at this
        omega
      have := congrArg (·.count '`') htake
      simp only [List.count_append] at this
      omega

theorem subFallback_skip_mid : ∀ {m : List Char}, (∀ c ∈ m, c ≠ '`') →
    ∀ (s : List Char), subFallback (m ++ (openTok ++ s)) = m ++ subFallback (openTok ++ s)
  | [], _, s => by simp
  | a :: m', hm, s => by
    have hng := openTok_not_prefOf_mid hm (by simp) s
    rw [List.cons_append] at hng ⊢
    rw [subFallback_neg hng,
      subFallback_skip_mid (fun c hc => hm c (List.mem_cons_of_mem a hc)) s]
    rfl

theorem findClose_clean : ∀ {i : List Char}, (∀ c ∈ i, c ≠ '`') →
    ∀ (r : List Char), findClose (i ++ (closeTok ++ r)) = some r
  | [], _, r => by
    rw [List.nil_append]
    have hcons : closeTok ++ r = '`' :: (';' :: r) := by
      rw [show closeTok = '`' :: ';' :: [] from by decide]
      rfl
    rw [hcons]
    unfold findClose
    rw [if_pos (by rw [← hcons]; exact isPrefixOf_self_append _ _)]
    rfl
  | c :: i', hm, r => by
    rw [List.cons_append]
    have hcls : closeTok.isPrefixOf (c :: (i' ++ (closeTok ++ r))) = false := by
      cases hb : closeTok.isPrefixOf (c :: (i' ++ (closeTok ++ r))) with
      | false => rfl
      | true =>
        exfalso
        obtain ⟨t, ht⟩ := (isPrefixOf_iff _ _).mp hb
        rw [show closeTok = '`' :: ';' :: [] from by decide] at ht
        simp only [List.cons_append] at ht
        injection ht with h1 _
        exact hm c (by simp) h1.symm
    unfold findClose
    rw [if_neg (by rw [hcls]; exact Bool.false_ne_true)]
    exact findClose_clean (fun x hx => hm x (List.mem_cons_of_mem c hx)) r

/-- A well-formed block (backtick-free inner text) at the head of the
input is replaced, and scanning resumes after it. -/
theorem subFallback_block {i : List Char} (hi : ∀ c ∈ i, c ≠ '`') (r : List Char) :
    subFallback (openTok ++ (i ++ (closeTok ++ r))) = fallbackRep ++ subFallback r := by
  have hpre : openTok.isPrefixOf (openTok ++ (i ++ (closeTok ++ r))) = true :=
    isPrefixOf_self_append _ _
  have hfind : findClose ((openTok ++ (i ++ (closeTok ++ r))).drop 22) = some r := by
    have h22 : openTok.length = 22 := rfl
    rw [show (22 : Nat) = openTok.length from rfl, List.drop_left]
    exact findClose_clean hi r
  cases hx : openTok ++ (i ++ (closeTok ++ r)) with
  | nil =>
    exfalso
    rcases List.append_eq_nil.mp hx with ⟨h1, _⟩
    exact absurd h1 (by decide)
  | cons c z =>
    rw [hx] at hpre hfind
    rw [subFallback_pos hpre hfind]

/-! ## Structure of `splitNl` output -/

theorem splitNl_shape : ∀ (s : List Char), ∃ hd tl, splitNl s = hd :: tl ∧
    (∃ u, hd ++ u = s) ∧ ∀ l ∈ tl, ∃ u v, u ++ l ++ v = s
  | [] => ⟨[], [], rfl, ⟨[], rfl⟩, by simp⟩
  | c :: t => by
    obtain ⟨hd, tl, hsp, ⟨u, hu⟩, htl⟩ := splitNl_shape t
    by_cases hc : c = '\n'
    · subst hc
      refine ⟨[], hd :: tl, ?_, ⟨'\n' :: t, rfl⟩, ?_⟩
      · show (if ('\n' : Char) = '\n' then [] :: splitNl t else _) = _
        rw [if_pos rfl, hsp]
      · intro l hl
        rcases List.mem_cons.mp hl with rfl | hl
        · exact ⟨['\n'], u, by rw [← hu]; rfl⟩
        · obtain ⟨u', v', huv⟩ := htl l hl
          exact ⟨'\n' :: u', v', by rw [← huv]; rfl⟩
    · refine ⟨c :: hd, tl, ?_, ⟨u, by rw [← hu]; rfl⟩, ?_⟩
      · have hstep : splitNl (c :: t)
            = match splitNl t with
              | [] => [[c]]
              | l :: ls => (c :: l) :: ls := by
          show (if c = '\n' then [] :: splitNl t else _) = _
          rw [if_neg hc]
        rw [hstep, hsp]
      · intro l hl
        obtain ⟨u', v', huv⟩ := htl l hl
        exact ⟨c :: u', v', by rw [← huv]; rfl⟩

theorem infix_of_mem_splitNl {l s : List Char} (h : l ∈ splitNl s) :
    ∃ u v, u ++ l ++ v = s := by
  obtain ⟨hd, tl, hsp, ⟨u, hu⟩, htl⟩ := splitNl_shape s
  rw [hsp] at h
  rcases List.mem_cons.mp h with rfl | h
  · exact ⟨[], u, by simpa using hu⟩
  · exact htl l h

theorem shape_of_mem_scanLines : ∀ {i : Nat} {ls : List (List Char)} {r : IssueRec},
    r ∈ scanLines i ls → ∃ j l, r = whereRec j l ∨ r = dollarRec j l ∨ r = unionRec j l
  | _, [], r => by simp [scanLines]
  | i, l :: ls, r => by
    intro h
    rcases List.mem_append.mp h with h | h
    · exact ⟨i, l, mem_issuesForLine h⟩
    · exact shape_of_mem_scanLines h

theorem pairwise_scanLines : ∀ (i : Nat) (ls : List (List Char)),
    (scanLines i ls).Pairwise issueOrder
  | _, [] => by simp [scanLines]
  | i, l :: ls => by
    rw [scanLines]
    refine List.pairwise_append.mpr
      ⟨pairwise_issuesForLine i l, pairwise_scanLines (i + 1) ls, ?_⟩
    intro a ha b hb
    have hbl : i + 1 ≤ b.line := line_of_mem_scanLines hb
    rcases mem_issuesForLine ha with rfl | rfl | rfl <;>
      exact Or.inl (by simp [whereRec, dollarRec, unionRec]; omega)

/-- Claim C1, counterexample: the code tests membership of the known error
string with Python's `in` (substring containment), not equality.  An input
that strictly contains the known error string is "another input string"
yet still yields the type-casting record, not the unknown record. -/
theorem claim1_counterexample :
    analyze_error ('x' :: knownErr) = typeCastingAnalysis ∧
    'x' :: knownErr ≠ knownErr ∧ typeCastingAnalysis ≠ unknownAnalysis := by
  refine ⟨by decide, by decide, by decide⟩

/-- Claim C1, amended: `classify` (`analyze_error`) is pure and
deterministic; it returns the fixed type-casting record exactly when the
input contains the known error string
`operator does not exist: character varying = integer` as a substring,
and the fixed unknown record exactly otherwise. -/
theorem claim1_amended (msg : List Char) :
    (analyze_error msg = typeCastingAnalysis ↔ ∃ u v, u ++ knownErr ++ v = msg) ∧
    (analyze_error msg = unknownAnalysis ↔ ¬ ∃ u v, u ++ knownErr ++ v = msg) := by
  have hne : typeCastingAnalysis ≠ unknownAnalysis := by decide
  unfold analyze_error
  by_cases hc : containsSub knownErr msg = true
  · rw [if_pos hc]
    refine ⟨⟨fun _ => (containsSub_iff _ _).mp hc, fun _ => rfl⟩, ?_, ?_⟩
    · intro h
      exact absurd h hne
    · intro h
      exact absurd ((containsSub_iff _ _).mp hc) h
  · rw [if_neg hc]
    have hcf : containsSub knownErr msg = false := by
      cases hx : containsSub knownErr msg with
      | false => rfl
      | true => exact absurd hx hc
    have hni : ¬ ∃ u v, u ++ knownErr ++ v = msg := by
      intro hex
      rw [(containsSub_iff _ _).mpr hex] at hcf
      cases hcf
    exact ⟨⟨fun h => absurd h.symm hne, fun h => absurd h hni⟩, ⟨fun _ => hni, fun _ => rfl⟩⟩

/-- Witness for C1's amended theorem at the known error string itself. -/
theorem claim1_witness : analyze_error knownErr = typeCastingAnalysis :=
  (claim1_amended knownErr).1.mpr ⟨[], [], by simp⟩

/-- Claim C2, counterexample: the `LIMIT \$2` substitution rewrites
`LIMIT $2` to `LIMIT $2::INTEGER`, which again contains `LIMIT $2`; the
pattern therefore still matches after one application and a second
application changes the bytes (`LIMIT $2::INTEGER::INTEGER`). -/
theorem claim2_counterexample :
    containsSub pat3 (fixSqlTransform "LIMIT $2".toList) = true ∧
    fixSqlTransform (fixSqlTransform "LIMIT $2".toList)
      ≠ fixSqlTransform "LIMIT $2".toList := by
  refine ⟨by decide, by decide⟩

/-- Claim C2, amended: `apply_targeted_fixes` is not idempotent in
general, because the replacements of the `WHERE`-`'win'` fix and the
`LIMIT $2` fix contain text their own patterns match again.  On every
content whose once-transformed image matches none of the four substitution
patterns, a second application leaves the bytes unchanged. -/
theorem claim2_amended (content : List Char)
    (h : patternsClear (fixSqlTransform content) = true) :
    fixSqlTransform (fixSqlTransform content) = fixSqlTransform content := by
  simp only [patternsClear, Bool.and_eq_true, Bool.not_eq_true'] at h
  obtain ⟨⟨⟨h1, h2⟩, h3⟩, h4⟩ := h
  show replaceAll pat4 rep4 (replaceAll pat3 rep3 (subWhere
    (replaceAll pat1 rep1 (fixSqlTransform content)))) = fixSqlTransform content
  rw [replaceAll_of_not_contains pat1 rep1 h1, subWhere_of_not_hasWM h2,
    replaceAll_of_not_contains pat3 rep3 h3, replaceAll_of_not_contains pat4 rep4 h4]

/-- Witness for C2's amended theorem: content whose once-fixed image is
clear of all four patterns. -/
theorem claim2_witness :
    fixSqlTransform (fixSqlTransform "winnings > 0".toList)
      = fixSqlTransform "winnings > 0".toList :=
  claim2_amended "winnings > 0".toList (by decide)

/-- Claim C3, counterexample: `re.sub` without a count replaces every
non-overlapping match, not only the first.  On a content with two
declaration blocks, the output is not "fallback block followed by the
untouched second block": both blocks are replaced. -/
theorem claim3_counterexample :
    (create_simple_fallback_query twoBlocksC3).written
        = fallbackRep ++ (" ".toList ++ fallbackRep) ∧
    (create_simple_fallback_query twoBlocksC3).written
        ≠ fallbackRep ++ " const bettingQuery = `B`;".toList := by
  refine ⟨by decide, by decide⟩

/-- Claim C3, amended: `apply_fallback` replaces every non-overlapping
block matching the declaration-token pattern, each matched span ending at
the first following closing delimiter; in particular, on a content made of
two well-formed blocks (inner texts and separator free of backticks) both
occurrences are replaced by the fallback block. -/
theorem claim3_amended (i1 mid i2 : List Char)
    (h1 : ∀ c ∈ i1, c ≠ '`') (h2 : ∀ c ∈ mid, c ≠ '`') (h3 : ∀ c ∈ i2, c ≠ '`') :
    subFallback (openTok ++ i1 ++ closeTok ++ mid ++ openTok ++ i2 ++ closeTok)
      = fallbackRep ++ mid ++ fallbackRep := by
  have e : openTok ++ i1 ++ closeTok ++ mid ++ openTok ++ i2 ++ closeTok
      = openTok ++ (i1 ++ (closeTok ++ (mid ++ (openTok ++ (i2 ++ (closeTok ++ [])))))) := by
    simp [List.append_assoc]
  rw [e, subFallback_block h1, subFallback_skip_mid h2, subFallback_block h3,
    subFallback_nil, List.append_nil]
  simp [List.append_assoc]

/-- Witness for C3's amended theorem on a concrete two-block content. -/
theorem claim3_witness :
    subFallback (openTok ++ "A".toList ++ closeTok ++ " ".toList ++ openTok ++ "B".toList
      ++ closeTok) = fallbackRep ++ " ".toList ++ fallbackRep :=
  claim3_amended "A".toList " ".toList "B".toList (by decide) (by decide) (by decide)

/-- Claim C4: `find_sql_issues` is a total function of the decoded file
content (the embedding is a Lean function, so it raises nothing), and the
number of issue records it returns is at most three per line of
`content.split('\n')`. -/
theorem claim4_scan_bound (content : List Char) :
    (find_sql_issues content).length ≤ 3 * (splitNl content).length :=
  scanLines_length_le 1 (splitNl content)

/-- Claim C5: on content in which no block matches the declaration-token
pattern, `create_simple_fallback_query` still reports success, still
performs its write, and the written bytes equal the bytes read. -/
theorem claim5_fallback_nomatch (content : List Char) (h : hasFb content = false) :
    create_simple_fallback_query content = ⟨true, true, content⟩ := by
  show (⟨true, true, subFallback content⟩ : WriteOutcome) = _
  rw [subFallback_of_not_hasFb h]

/-- Witness for C5 on a content without any declaration block. -/
theorem claim5_witness :
    create_simple_fallback_query "hello".toList = ⟨true, true, "hello".toList⟩ :=
  claim5_fallback_nomatch "hello".toList (by decide)

/-- Claim C6: fallback-first policy of `run_diagnosis` — when the target
exists, a successful fallback makes the run succeed without ever invoking
`fix_sql_query`; when the fallback fails, `fix_sql_query` is invoked and
its result is the run's result (so the run fails only when both mutation
steps fail). -/
theorem claim6_fallback_first (env : RunEnv) (h : env.targetExists = true) :
    (env.fallbackOk = true →
      (run_diagnosis env).1 = true ∧ RunStep.targetedFix ∉ (run_diagnosis env).2) ∧
    (env.fallbackOk = false →
      (run_diagnosis env).1 = env.fixOk ∧ RunStep.targetedFix ∈ (run_diagnosis env).2) := by
  rcases env with ⟨te, fb, fx⟩
  simp only at h
  subst h
  cases fb <;> cases fx <;> refine ⟨?_, ?_⟩ <;> decide

/-- Witness for C6 in the environment where the fallback fails and the
targeted fixes succeed. -/
theorem claim6_witness :
    ((⟨true, false, true⟩ : RunEnv).fallbackOk = true →
      (run_diagnosis ⟨true, false, true⟩).1 = true ∧
      RunStep.targetedFix ∉ (run_diagnosis ⟨true, false, true⟩).2) ∧
    ((⟨true, false, true⟩ : RunEnv).fallbackOk = false →
      (run_diagnosis ⟨true, false, true⟩).1 = (⟨true, false, true⟩ : RunEnv).fixOk ∧
      RunStep.targetedFix ∈ (run_diagnosis ⟨true, false, true⟩).2) :=
  claim6_fallback_first ⟨true, false, true⟩ rfl

/-- Claim C7: when the hardcoded target path does not exist,
`run_diagnosis` prints the not-found diagnostic and returns `False`,
performing no read, no classification, no scan and no mutation: its trace
is exactly the diagnostic print. -/
theorem claim7_not_found (env : RunEnv) (h : env.targetExists = false) :
    run_diagnosis env = (false, [RunStep.printNotFound]) := by
  rcases env with ⟨te, fb, fx⟩
  simp only at h
  subst h
  cases fb <;> cases fx <;> decide

/-- Witness for C7. -/
theorem claim7_witness :
    run_diagnosis ⟨false, true, true⟩ = (false, [RunStep.printNotFound]) :=
  claim7_not_found ⟨false, true, true⟩ rfl

/-- Claim C8: every content containing the line `WHERE result = 'win'`
is transformed by `fix_sql_query` into content containing
`WHERE result = 'win'::VARCHAR`. -/
theorem claim8_scenario_a (content : List Char) (h : wline ∈ splitNl content) :
    ∃ u v, u ++ whereFixRep ++ v = (fix_sql_query content).written := by
  obtain ⟨A, B, hAB⟩ := infix_of_mem_splitNl h
  have hstep1 : replaceAll pat1 rep1 content
      = replaceAll pat1 rep1 A ++ wline ++ replaceAll pat1 rep1 B := by
    rw [← hAB]
    exact replaceAll_through pat1 rep1 wline (by decide) (by decide) (by decide) A B
  have hWM : hasWM (replaceAll pat1 rep1 content) = true := by
    rw [hstep1, List.append_assoc]
    exact hasWM_append _ (hasWM_wline _)
  obtain ⟨u, v, huv⟩ := whereFixRep_infix_subWhere hWM
  have hstep3 : replaceAll pat3 rep3 (subWhere (replaceAll pat1 rep1 content))
      = replaceAll pat3 rep3 u ++ whereFixRep ++ replaceAll pat3 rep3 v := by
    rw [← huv]
    exact replaceAll_through pat3 rep3 whereFixRep (by decide) (by decide) (by decide) u v
  have hstep4 : fixSqlTransform content
      = replaceAll pat4 rep4 (replaceAll pat3 rep3 u) ++ whereFixRep
        ++ replaceAll pat4 rep4 (replaceAll pat3 rep3 v) := by
    show replaceAll pat4 rep4 (replaceAll pat3 rep3 (subWhere (replaceAll pat1 rep1 content)))
        = _
    rw [hstep3]
    exact replaceAll_through pat4 rep4 whereFixRep (by decide) (by decide) (by decide) _ _
  exact ⟨_, _, hstep4.symm⟩

/-- Witness for C8 on the file that consists of the scenario line alone. -/
theorem claim8_witness :
    ∃ u v, u ++ whereFixRep ++ v = (fix_sql_query wline).written :=
  claim8_scenario_a wline (by decide)

/-- Claim C9: every record produced by `find_sql_issues` has severity
`medium` (and then it is the quoted-string-comparison record) or `high`
(and then it is the placeholder record or the `UNION` record); severity
`low` is never produced. -/
theorem claim9_severities (content : List Char) {r : IssueRec}
    (h : r ∈ find_sql_issues content) :
    (r.severity = "medium" ∧ r.issue = whereMsg) ∨
    (r.severity = "high" ∧ (r.issue = dollarMsg ∨ r.issue = unionMsg)) := by
  obtain ⟨j, l, hshape⟩ := shape_of_mem_scanLines h
  rcases hshape with rfl | rfl | rfl
  · exact Or.inl ⟨rfl, rfl⟩
  · exact Or.inr ⟨rfl, Or.inl rfl⟩
  · exact Or.inr ⟨rfl, Or.inr rfl⟩

/-- Witness for C9 on a one-line `UNION` content. -/
theorem claim9_witness :
    ((unionRec 1 "UNION".toList).severity = "medium" ∧
      (unionRec 1 "UNION".toList).issue = whereMsg) ∨
    ((unionRec 1 "UNION".toList).severity = "high" ∧
      ((unionRec 1 "UNION".toList).issue = dollarMsg ∨
       (unionRec 1 "UNION".toList).issue = unionMsg)) :=
  claim9_severities "UNION".toList (by decide)

/-- Claim C10: the records returned by `find_sql_issues` are sorted by
line number, and within one line the quoted-string-comparison record
precedes the placeholder record, which precedes the `UNION` record (the
`issueRank` order). -/
theorem claim10_ordering (content : List Char) :
    (find_sql_issues content).Pairwise issueOrder :=
  pairwise_scanLines 1 (splitNl content)

end DebugAgent

